import Mathlib

/-!
Verification of the lontod ontology daemon core against its specification.

The Python sources are shallowly embedded: SQLite tables become lists of row
structures, mutation becomes explicit state passing, Python strings are Lean
strings with char-level helper functions mirroring Python semantics, and
exceptions become Option results or explicit error fields.
-/

namespace Lontod

/-! ### Python string helpers

Char-level models of the Python string operations used by the sources
(str.split with a one-character separator, str.strip, joining).  Python
string indices are code points, which matches Lean lists of chars. -/

/-- Auxiliary worker for splitChar, walking the char list with an accumulator
for the current field (kept in reverse). -/
def splitCharAux (c : Char) : List Char → List Char → List String
  | [], acc => [String.mk acc.reverse]
  | x :: xs, acc =>
    if x = c then String.mk acc.reverse :: splitCharAux c xs []
    else splitCharAux c xs (x :: acc)

/-- Model of Python s.split(sep) for a one-character separator sep:
always returns a non-empty list of fields. -/
def splitChar (c : Char) (s : String) : List String :=
  splitCharAux c s.data []

/-- Python whitespace characters as removed by str.strip(). -/
def isPySpace (c : Char) : Bool :=
  c = ' ' || c = '\t' || c = '\n' || c = '\r' || c = '\x0b' || c = '\x0c'

/-- Model of Python str.strip(). -/
def pyStrip (s : String) : String :=
  String.mk (((s.data.dropWhile isPySpace).reverse.dropWhile isPySpace).reverse)

/-- Model of Python sep.join(parts). -/
def pyJoin (sep : String) : List String → String
  | [] => ""
  | [x] => x
  | x :: y :: xs => x ++ sep ++ pyJoin sep (y :: xs)

/-- Model of Python s.startswith(p). -/
def pyStartsWith (s p : String) : Bool :=
  p.data.isPrefixOf s.data

/-- Model of Python s[n:] (code-point slicing). -/
def pyDrop (s : String) (n : Nat) : String :=
  String.mk (s.data.drop n)

/-! ### Storage model (src/lontod/index/indexer.py)

The DEFINIENDA and DATA tables are lists of rows; blob bytes are lists of
byte values.  SQLite keeps insertion order for plain SELECTs, so a list is a
faithful model of the table state observed by the queries in the source. -/

/-- Row of the DEFINIENDA table: URI, ONTOLOGY_ID, SORT_KEY, CANONICAL,
FRAGMENT (nullable). -/
structure DefRow where
  uri : String
  ontologyId : String
  sortKey : String
  canonical : Bool
  fragment : Option String
deriving DecidableEq, Repr

/-- Row of the DATA table: ONTOLOGY_ID, MIME_TYPE, DATA blob. -/
structure DataRow where
  ontologyId : String
  mimeType : String
  blob : List Nat
deriving DecidableEq, Repr

/-- State of the two persistent tables. -/
structure Db where
  definienda : List DefRow
  data : List DataRow
deriving DecidableEq, Repr

/-! ### Ontology value (src/lontod/ontologies/ontology.py) -/

/-- Embeds the frozen Ontology dataclass: uri, alternate_uris, encodings
(media type to blob, in dict iteration order) and definienda
(definiendum IRI to fragment, in dict iteration order). -/
structure PyOntology where
  uri : String
  alternateUris : List String
  encodings : List (String × List Nat)
  definienda : List (String × String)
deriving DecidableEq, Repr

/-- Embeds Ontology.uris: the primary uri flagged canonical, then each
alternate uri flagged non-canonical. -/
def PyOntology.urisList (o : PyOntology) : List (String × Bool) :=
  (o.uri, true) :: o.alternateUris.map (fun u => (u, false))

/-- Embeds Ontology.all_definienda: each definiendum with its fragment,
canonically, followed by the alternate-uri rewrites of relative IRIs. -/
def PyOntology.allDefinienda (o : PyOntology) : List (String × String × Bool) :=
  o.definienda.flatMap (fun p =>
    (p.1, p.2, true) ::
      (if pyStartsWith p.1 o.uri then
        o.alternateUris.map
          (fun base => (base ++ pyDrop p.1 o.uri.data.length, p.2, false))
      else []))

/-! ### Indexer operations (src/lontod/index/indexer.py) -/

/-- Embeds Indexer.truncate: DELETE FROM DEFINIENDA; DELETE FROM DATA. -/
def truncate (_db : Db) : Db :=
  { definienda := [], data := [] }

/-- Embeds Indexer.remove: delete all rows for the identifier in both
tables. -/
def remove (identifier : String) (db : Db) : Db :=
  { definienda := db.definienda.filter (fun r => r.ontologyId ≠ identifier),
    data := db.data.filter (fun r => r.ontologyId ≠ identifier) }

/-- DEFINIENDA rows inserted by upsert for the ontology-identity uris
(FRAGMENT is NULL). -/
def upsertUriRows (identifier sortKey : String) (o : PyOntology) : List DefRow :=
  o.urisList.map (fun p =>
    { uri := p.1, ontologyId := identifier, sortKey := sortKey,
      canonical := p.2, fragment := none })

/-- DATA rows inserted by upsert, one per (media type, blob). -/
def upsertDataRows (identifier : String) (o : PyOntology) : List DataRow :=
  o.encodings.map (fun p =>
    { ontologyId := identifier, mimeType := p.1, blob := p.2 })

/-- DEFINIENDA rows inserted by upsert for the definienda (FRAGMENT set). -/
def upsertDefRows (identifier sortKey : String) (o : PyOntology) : List DefRow :=
  o.allDefinienda.map (fun t =>
    { uri := t.1, ontologyId := identifier, sortKey := sortKey,
      canonical := t.2.2, fragment := some t.2.1 })

/-- Embeds Indexer.upsert: remove the identifier, then bulk-insert uri rows,
data rows, and definienda rows; a non-string sort key defaults to the
identifier. -/
def upsert (identifier : String) (o : PyOntology) (sortKey : Option String)
    (db : Db) : Db :=
  { definienda :=
      (remove identifier db).definienda ++
        upsertUriRows identifier (sortKey.getD identifier) o ++
        upsertDefRows identifier (sortKey.getD identifier) o,
    data := (remove identifier db).data ++ upsertDataRows identifier o }

/-! Helper facts: every row inserted by upsert carries the upserted
identifier, so a second remove of the same identifier deletes exactly the
inserted rows. -/

theorem upsertUriRows_ontologyId (identifier sortKey : String) (o : PyOntology) :
    ∀ r ∈ upsertUriRows identifier sortKey o, r.ontologyId = identifier := by
  intro r hr
  simp only [upsertUriRows, List.mem_map] at hr
  obtain ⟨p, _, rfl⟩ := hr
  rfl

theorem upsertDataRows_ontologyId (identifier : String) (o : PyOntology) :
    ∀ r ∈ upsertDataRows identifier o, r.ontologyId = identifier := by
  intro r hr
  simp only [upsertDataRows, List.mem_map] at hr
  obtain ⟨p, _, rfl⟩ := hr
  rfl

theorem upsertDefRows_ontologyId (identifier sortKey : String) (o : PyOntology) :
    ∀ r ∈ upsertDefRows identifier sortKey o, r.ontologyId = identifier := by
  intro r hr
  simp only [upsertDefRows, List.mem_map] at hr
  obtain ⟨p, _, rfl⟩ := hr
  rfl

theorem remove_remove (identifier : String) (db : Db) :
    remove identifier (remove identifier db) = remove identifier db := by
  simp [remove, List.filter_filter]

theorem remove_upsert (identifier : String) (o : PyOntology)
    (sortKey : Option String) (db : Db) :
    remove identifier (upsert identifier o sortKey db) = remove identifier db := by
  have e1 : List.filter (fun r => decide (r.ontologyId ≠ identifier))
      (upsertUriRows identifier (sortKey.getD identifier) o) = [] := by
    apply List.filter_eq_nil_iff.mpr
    intro a ha
    simp [upsertUriRows_ontologyId identifier (sortKey.getD identifier) o a ha]
  have e2 : List.filter (fun r => decide (r.ontologyId ≠ identifier))
      (upsertDefRows identifier (sortKey.getD identifier) o) = [] := by
    apply List.filter_eq_nil_iff.mpr
    intro a ha
    simp [upsertDefRows_ontologyId identifier (sortKey.getD identifier) o a ha]
  have e3 : List.filter (fun r => decide (r.ontologyId ≠ identifier))
      (upsertDataRows identifier o) = [] := by
    apply List.filter_eq_nil_iff.mpr
    intro a ha
    simp [upsertDataRows_ontologyId identifier o a ha]
  simp only [upsert, remove, List.filter_append, List.filter_filter]
  simp [e1, e2, e3]
  exact ⟨⟨upsertUriRows_ontologyId identifier (sortKey.getD identifier) o,
    upsertDefRows_ontologyId identifier (sortKey.getD identifier) o⟩,
    upsertDataRows_ontologyId identifier o⟩

/-! ### Query model (src/lontod/index/query.py) -/

/-- Definiendum record yielded by Query.get_definienda. -/
structure QDefiniendum where
  uri : String
  ontologyIdentifier : String
  canonical : Bool
  fragment : Option String
deriving DecidableEq, Repr

/-- Ordering used by the get_definienda SQL: CANONICAL DESC then
SORT_KEY DESC.  In SQLite CANONICAL holds 0 or 1 and TEXT compares by
UTF-8 bytes, which agrees with the code-point order on Lean strings. -/
def defOrder (a b : DefRow) : Prop :=
  toLex (b.canonical, b.sortKey) ≤ toLex (a.canonical, a.sortKey)

instance : DecidableRel defOrder := fun a b =>
  inferInstanceAs (Decidable (toLex (b.canonical, b.sortKey) ≤ toLex (a.canonical, a.sortKey)))

instance : IsTotal DefRow defOrder :=
  ⟨fun a b => le_total (toLex (b.canonical, b.sortKey)) (toLex (a.canonical, a.sortKey))⟩

instance : IsTrans DefRow defOrder :=
  ⟨fun _ _ _ h1 h2 => le_trans h2 h1⟩

/-- Embeds the SQL of Query.get_definienda: with no candidate uris nothing
is returned, otherwise the DEFINIENDA rows whose URI is among the
candidates, ordered by CANONICAL DESC, SORT_KEY DESC. -/
def getDefiniendaRows (db : Db) (uris : List String) : List DefRow :=
  if uris.isEmpty then []
  else List.insertionSort defOrder (db.definienda.filter (fun r => uris.contains r.uri))

/-- Embeds Query.get_definienda: each selected row becomes a Definiendum
record (CANONICAL is compared against 1). -/
def getDefinienda (db : Db) (uris : List String) : List QDefiniendum :=
  (getDefiniendaRows db uris).map (fun r =>
    { uri := r.uri, ontologyIdentifier := r.ontologyId,
      canonical := r.canonical, fragment := r.fragment })

/-! ### Query model, data side (src/lontod/index/query.py) -/

/-- Embeds Query.get_data: the first DATA row for (identifier, mime type),
if any (SELECT with LIMIT 1 in table order); as_utf8 is the identity on
blobs. -/
def getData (db : Db) (identifier mimeType : String) : Option (List Nat) :=
  (db.data.find? (fun r => r.ontologyId == identifier && r.mimeType == mimeType)).map
    (fun r => r.blob)

/-- Embeds Query.has_mime_type: EXISTS over DATA. -/
def hasMimeType (db : Db) (identifier mimeType : String) : Bool :=
  db.data.any (fun r => r.mimeType == mimeType && r.ontologyId == identifier)

/-- MIME types stored for an identifier, in DATA table order (the multiset
the SELECT DISTINCT draws from). -/
def storedTypes (db : Db) (identifier : String) : List String :=
  (db.data.filter (fun r => r.ontologyId == identifier)).map (fun r => r.mimeType)

/-- Embeds Query.get_mime_types: SELECT DISTINCT MIME_TYPE ordered by
MIME_TYPE ascending. -/
def getMimeTypes (db : Db) (identifier : String) : List String :=
  List.insertionSort (· ≤ ·) (storedTypes db identifier).dedup

/-- C2: executing upsert twice with the same identifier, ontology and sort
key leaves the database byte-equivalent to executing it once, because
upsert first removes all rows for the identifier and then inserts. -/
theorem upsert_idempotent (identifier : String) (o : PyOntology)
    (sortKey : Option String) (db : Db) :
    upsert identifier o sortKey (upsert identifier o sortKey db) =
      upsert identifier o sortKey db := by
  conv_lhs => rw [upsert]
  rw [remove_upsert]
  conv_rhs => rw [upsert]

/-- C10: remove and upsert for one identifier leave every DEFINIENDA and
DATA row of any other identifier unchanged (same rows, same blob bytes),
while truncate empties both tables entirely. -/
theorem remove_upsert_frame (identifier j : String) (o : PyOntology)
    (sortKey : Option String) (db : Db) (h : j ≠ identifier) :
    (remove identifier db).definienda.filter (fun r => r.ontologyId = j) =
        db.definienda.filter (fun r => r.ontologyId = j) ∧
    (remove identifier db).data.filter (fun r => r.ontologyId = j) =
        db.data.filter (fun r => r.ontologyId = j) ∧
    (upsert identifier o sortKey db).definienda.filter (fun r => r.ontologyId = j) =
        db.definienda.filter (fun r => r.ontologyId = j) ∧
    (upsert identifier o sortKey db).data.filter (fun r => r.ontologyId = j) =
        db.data.filter (fun r => r.ontologyId = j) ∧
    truncate db = { definienda := [], data := [] } := by
  have hcongr : ∀ (α : Type) (oid : α → String) (l : List α),
      (l.filter (fun r => oid r ≠ identifier)).filter (fun r => oid r = j) =
        l.filter (fun r => oid r = j) := by
    intro α oid l
    rw [List.filter_filter]
    apply List.filter_congr
    intro a _
    by_cases hx : oid a = j
    · simp [hx, h, hx ▸ h]
    · simp [hx]
  have hrm1 : (remove identifier db).definienda.filter (fun r => r.ontologyId = j) =
      db.definienda.filter (fun r => r.ontologyId = j) :=
    hcongr DefRow (fun r => r.ontologyId) db.definienda
  have hrm2 : (remove identifier db).data.filter (fun r => r.ontologyId = j) =
      db.data.filter (fun r => r.ontologyId = j) :=
    hcongr DataRow (fun r => r.ontologyId) db.data
  have hnil : ∀ (α : Type) (oid : α → String) (l : List α),
      (∀ r ∈ l, oid r = identifier) → l.filter (fun r => oid r = j) = [] := by
    intro α oid l hl
    apply List.filter_eq_nil_iff.mpr
    intro a ha
    simp only [hl a ha, decide_eq_true_eq]
    exact fun hj => h hj.symm
  refine ⟨hrm1, hrm2, ?_, ?_, rfl⟩
  · simp only [upsert, List.filter_append, hrm1,
      hnil DefRow (fun r => r.ontologyId) _
        (upsertUriRows_ontologyId identifier (sortKey.getD identifier) o),
      hnil DefRow (fun r => r.ontologyId) _
        (upsertDefRows_ontologyId identifier (sortKey.getD identifier) o)]
    simp
  · simp only [upsert, List.filter_append, hrm2,
      hnil DataRow (fun r => r.ontologyId) _
        (upsertDataRows_ontologyId identifier o)]
    simp

/-- Concrete two-ontology database used by the frame-property witness. -/
def frameDb : Db :=
  ⟨[⟨"u", "a", "a", true, none⟩, ⟨"v", "b", "b", true, none⟩],
    [⟨"b", "text/html", [60]⟩]⟩

/-- Concrete ontology value used by the frame-property witness. -/
def frameOnt : PyOntology := ⟨"http://example.org/x", [], [], []⟩

/-- Witness for remove_upsert_frame at a concrete database with two
ontologies. -/
theorem remove_upsert_frame_witness :
    (remove "a" frameDb).definienda.filter (fun r => r.ontologyId = "b") =
      frameDb.definienda.filter (fun r => r.ontologyId = "b") :=
  (remove_upsert_frame "a" "b" frameOnt none frameDb (by decide)).1

/-- C4: get_definienda selects exactly the DEFINIENDA rows whose URI is
among the candidates, in an order sorted by CANONICAL DESC then SORT_KEY
DESC; with zero candidates it yields nothing; the yielded records carry
uri, ontology id, canonical flag and fragment of the selected rows. -/
theorem get_definienda_spec (db : Db) (uris : List String) :
    List.Perm (getDefiniendaRows db uris)
      (db.definienda.filter (fun r => uris.contains r.uri)) ∧
    (getDefiniendaRows db uris).Sorted defOrder ∧
    getDefiniendaRows db [] = [] ∧
    getDefinienda db uris = (getDefiniendaRows db uris).map (fun r =>
      { uri := r.uri, ontologyIdentifier := r.ontologyId,
        canonical := r.canonical, fragment := r.fragment }) := by
  refine ⟨?_, ?_, rfl, rfl⟩
  · by_cases h : uris.isEmpty
    · have h0 : uris = [] := List.isEmpty_iff.mp h
      subst h0
      simp [getDefiniendaRows]
    · simp only [getDefiniendaRows, h, if_neg]
      exact List.perm_insertionSort defOrder _
  · by_cases h : uris.isEmpty
    · simp [getDefiniendaRows, h, List.Sorted]
    · simp only [getDefiniendaRows, h, if_neg]
      exact List.sorted_insertionSort defOrder _

/-! ### Graph model (src/lontod/utils/graph.py)

An rdflib graph is a set of triples; restrict_languages only ever removes
whole triples, so a duplicate-free list models the graph faithfully.  The
sequential in-place removal in the source is equivalent to one filter pass
computed against the original graph: removals for a (subject, predicate)
pair only concern triples of that very pair, never change the language
multiset seen by any other pair, and always keep at least the literal of
the chosen language, so no pair disappears while iterating. -/

/-- RDF node: IRI reference, blank node, or literal with optional language
tag and optional datatype. -/
inductive RdfNode where
  | iri (value : String)
  | blank (label : String)
  | lit (value : String) (lang : Option String) (datatype : Option String)
deriving DecidableEq, Repr

/-- Triple of an rdflib graph. -/
structure RdfTriple where
  subj : RdfNode
  pred : RdfNode
  obj : RdfNode
deriving DecidableEq, Repr

/-- Languages (including the missing tag, none) of all literal objects for
one (subject, predicate) pair, in graph order; mirrors the langs list built
by restrict_languages. -/
def langsOf (g : List RdfTriple) (s p : RdfNode) : List (Option String) :=
  g.filterMap (fun t =>
    if t.subj = s ∧ t.pred = p then
      match t.obj with
      | RdfNode.lit _ lang _ => some lang
      | _ => none
    else none)

/-- Embeds _pick_language: given the set of offered language tags (modelled
as a duplicate-free list, since only membership, emptiness and the minimum
are consulted) and the optional preference sequence, picks the retained
language, or none.  Python's min over strings is the code-point
lexicographic minimum, matching the order on Lean strings. -/
def pickLanguage (offers : List (Option String)) (preferences : Option (List String)) :
    Option String :=
  if offers.length = 0 ∨ (offers.length = 1 ∧ none ∈ offers) then none
  else
    match (preferences.getD []).find? (fun lang => offers.contains (some lang)) with
    | some lang => some lang
    | none =>
      match offers.filterMap id with
      | [] => none
      | x :: xs => some (xs.foldl min x)

/-- Language retained for a (subject, predicate) pair of the graph. -/
def choiceFor (g : List RdfTriple) (s p : RdfNode)
    (preferences : Option (List String)) : Option String :=
  pickLanguage (langsOf g s p).dedup preferences

/-- Survival condition of one triple under restrict_languages: a triple is
removed exactly when its object is a literal, a language was chosen for its
(subject, predicate) pair, and the literal's tag differs from it. -/
def keepTriple (g : List RdfTriple) (preferences : Option (List String))
    (t : RdfTriple) : Bool :=
  match t.obj with
  | RdfNode.lit _ lang _ =>
    match choiceFor g t.subj t.pred preferences with
    | none => true
    | some c => lang = some c
  | _ => true

/-- Embeds restrict_languages as one filter pass computed against the
original graph (equivalent to the sequential per-pair removal, see the
section comment). -/
def restrictLanguages (g : List RdfTriple) (preferences : Option (List String)) :
    List RdfTriple :=
  g.filter (keepTriple g preferences)

/-! Supporting lemmas for the language-restriction claims. -/

theorem foldl_min_mem {α : Type} [LinearOrder α] (xs : List α) (x : α) :
    xs.foldl min x ∈ x :: xs := by
  induction xs generalizing x with
  | nil => simp
  | cons y ys ih =>
    rw [List.foldl_cons]
    rcases List.mem_cons.mp (ih (min x y)) with h1 | h1
    · rcases min_choice x y with hm | hm
      · rw [h1, hm]
        exact List.mem_cons_self _ _
      · rw [h1, hm]
        exact List.mem_cons_of_mem _ (List.mem_cons_self _ _)
    · exact List.mem_cons_of_mem _ (List.mem_cons_of_mem _ h1)

theorem pickLanguage_mem {offers : List (Option String)}
    {prefs : Option (List String)} {c : String}
    (h : pickLanguage offers prefs = some c) : some c ∈ offers := by
  unfold pickLanguage at h
  split at h
  · exact absurd h (by simp)
  · split at h
    · next lang heq =>
      obtain rfl : lang = c := by injection h
      have := List.find?_some heq
      simpa using this
    · split at h
      · exact absurd h (by simp)
      · next x xs heq =>
        obtain rfl : xs.foldl min x = c := by injection h
        have h1 : xs.foldl min x ∈ x :: xs := foldl_min_mem xs x
        rw [← heq] at h1
        obtain ⟨o, ho, ho2⟩ := List.mem_filterMap.mp h1
        have ho2' : o = some (xs.foldl min x) := ho2
        exact ho2' ▸ ho

theorem pickLanguage_single (c : String) (prefs : Option (List String)) :
    pickLanguage [some c] prefs = some c := by
  unfold pickLanguage
  rw [if_neg (by simp)]
  cases hf : (prefs.getD []).find? (fun lang => [some c].contains (some lang)) with
  | none => simp [hf]
  | some lang =>
    have h1 := List.find?_some hf
    have h2 : lang = c := by simpa using h1
    simp [hf, h2]

theorem dedup_all_eq {α : Type} [DecidableEq α] (l : List α) (a : α)
    (hne : l ≠ []) (h : ∀ x ∈ l, x = a) : l.dedup = [a] := by
  cases hd : l.dedup with
  | nil => exact absurd ((List.dedup_eq_nil l).mp hd) hne
  | cons x xs =>
    have hx : x = a := h x (List.mem_dedup.mp (hd ▸ List.mem_cons_self x xs))
    have hnd : (x :: xs).Nodup := hd ▸ l.nodup_dedup
    cases xs with
    | nil => rw [hx]
    | cons y ys =>
      have hy : y = a :=
        h y (List.mem_dedup.mp (hd ▸ List.mem_cons_of_mem x (List.mem_cons_self y ys)))
      have : x ≠ y := by
        have := List.nodup_cons.mp hnd
        exact fun hxy => this.1 (hxy ▸ List.mem_cons_self y ys)
      exact absurd (hx.trans hy.symm) this

theorem dedup_all_none (l : List (Option String)) (h : ∀ x ∈ l, x = none) :
    l.dedup = [] ∨ l.dedup = [none] := by
  rcases l with _ | ⟨x, xs⟩
  · exact Or.inl (by simp)
  · exact Or.inr (dedup_all_eq _ none (by simp) h)

theorem filterMap_filter_eq {α β : Type} (f : α → Option β) (q : α → Bool)
    (l : List α) :
    (l.filter q).filterMap f = l.filterMap (fun a => if q a then f a else none) := by
  induction l with
  | nil => rfl
  | cons x xs ih =>
    by_cases h : q x = true
    · cases hf : f x with
      | none => simp [List.filter_cons, h, List.filterMap_cons_none hf, ih, hf]
      | some b =>
        simp [List.filter_cons, h, List.filterMap_cons_some hf, ih, hf]
    · cases hf : f x with
      | none => simp [List.filter_cons, h, ih, hf]
      | some b => simp [List.filter_cons, h, ih, hf]

theorem filter_filterMap_eq {α β : Type} (f : α → Option β) (p : β → Bool)
    (l : List α) :
    (l.filterMap f).filter p =
      l.filterMap (fun a =>
        match f a with
        | some b => if p b then some b else none
        | none => none) := by
  induction l with
  | nil => rfl
  | cons x xs ih =>
    cases hf : f x with
    | none => simp [List.filterMap_cons_none hf, ih, hf]
    | some b =>
      by_cases h : p b = true
      · simp [List.filterMap_cons_some hf, List.filter_cons, h, ih, hf]
      · simp [List.filterMap_cons_some hf, List.filter_cons, h, ih, hf]

theorem langsOf_restrict (g : List RdfTriple) (prefs : Option (List String))
    (s p : RdfNode) :
    langsOf (restrictLanguages g prefs) s p =
      match choiceFor g s p prefs with
      | none => langsOf g s p
      | some c => (langsOf g s p).filter (fun l => l = some c) := by
  cases hc : choiceFor g s p prefs with
  | none =>
    show langsOf (restrictLanguages g prefs) s p = langsOf g s p
    unfold restrictLanguages langsOf
    rw [filterMap_filter_eq]
    apply List.filterMap_congr
    intro t _
    obtain ⟨ts, tp, tobj⟩ := t
    by_cases hsp : ts = s ∧ tp = p
    · obtain ⟨h1, h2⟩ := hsp
      subst h1
      subst h2
      cases tobj with
      | lit v lang dt => simp [keepTriple, hc]
      | iri v => simp [keepTriple]
      | blank v => simp [keepTriple]
    · simp only [hsp, if_false]
      split <;> rfl
  | some c =>
    show langsOf (restrictLanguages g prefs) s p =
      (langsOf g s p).filter (fun l => l = some c)
    unfold restrictLanguages langsOf
    rw [filterMap_filter_eq, filter_filterMap_eq]
    apply List.filterMap_congr
    intro t _
    obtain ⟨ts, tp, tobj⟩ := t
    by_cases hsp : ts = s ∧ tp = p
    · obtain ⟨h1, h2⟩ := hsp
      subst h1
      subst h2
      cases tobj with
      | lit v lang dt =>
        simp only [keepTriple, hc]
        by_cases hl : lang = some c
        · simp [hl]
        · simp [hl]
      | iri v => simp [keepTriple]
      | blank v => simp [keepTriple]
    · simp only [hsp, if_false]
      split <;> rfl

theorem choiceFor_restrict (g : List RdfTriple) (prefs : Option (List String))
    (s p : RdfNode) :
    choiceFor (restrictLanguages g prefs) s p prefs = choiceFor g s p prefs := by
  cases hc : choiceFor g s p prefs with
  | none =>
    have hA := langsOf_restrict g prefs s p
    rw [hc] at hA
    unfold choiceFor
    rw [hA]
    exact hc
  | some c =>
    have hA := langsOf_restrict g prefs s p
    rw [hc] at hA
    unfold choiceFor
    rw [hA]
    have hmem : some c ∈ langsOf g s p := by
      have h1 : some c ∈ (langsOf g s p).dedup := pickLanguage_mem hc
      exact List.mem_dedup.mp h1
    have hfilmem : some c ∈ (langsOf g s p).filter (fun l => l = some c) :=
      List.mem_filter.mpr ⟨hmem, by simp⟩
    have hfil : (langsOf g s p).filter (fun l => l = some c) ≠ [] := by
      intro h0
      rw [h0] at hfilmem
      exact absurd hfilmem (List.not_mem_nil _)
    have hall : ∀ x ∈ (langsOf g s p).filter (fun l => l = some c), x = some c := by
      intro x hx
      have := (List.mem_filter.mp hx).2
      simpa using this
    rw [dedup_all_eq _ _ hfil hall]
    exact pickLanguage_single c prefs

/-- C7: applying restrict_languages twice with the same preference sequence
yields the same graph as applying it once; the second application removes
no further triples. -/
theorem restrict_languages_idempotent (g : List RdfTriple)
    (prefs : Option (List String)) :
    restrictLanguages (restrictLanguages g prefs) prefs =
      restrictLanguages g prefs := by
  conv_lhs => rw [restrictLanguages]
  apply List.filter_eq_self.mpr
  intro t ht
  have hkeep : keepTriple g prefs t = true := (List.mem_filter.mp ht).2
  obtain ⟨ts, tp, tobj⟩ := t
  cases tobj with
  | lit v lang dt =>
    simp only [keepTriple] at hkeep ⊢
    rw [choiceFor_restrict]
    exact hkeep
  | iri v => simp [keepTriple]
  | blank v => simp [keepTriple]

/-- Concrete graph refuting C6: one untagged and one en-tagged literal on
the same (subject, predicate). -/
def mixedGraph : List RdfTriple :=
  [⟨RdfNode.iri "http://example.org/s", RdfNode.iri "http://example.org/p",
      RdfNode.lit "no language" none none⟩,
   ⟨RdfNode.iri "http://example.org/s", RdfNode.iri "http://example.org/p",
      RdfNode.lit "english" (some "en") none⟩]

/-- C6 counterexample: restrict_languages with no preferences removes the
untagged literal of mixedGraph, because the chosen language en differs
from the missing tag; untagged literals are not always retained. -/
theorem restrict_languages_drops_untagged :
    ¬ (⟨RdfNode.iri "http://example.org/s", RdfNode.iri "http://example.org/p",
        RdfNode.lit "no language" none none⟩ : RdfTriple) ∈
      restrictLanguages mixedGraph none := by
  decide

/-- C6 amended: restrict_languages retains an untagged literal provided no
language-tagged literal exists for the same (subject, predicate) pair; when
a tagged literal exists, the untagged literal of that pair is removed along
with all literals of non-chosen languages. -/
theorem restrict_languages_keeps_untagged (g : List RdfTriple)
    (prefs : Option (List String)) (s p : RdfNode) (v : String)
    (dt : Option String)
    (hmem : (⟨s, p, RdfNode.lit v none dt⟩ : RdfTriple) ∈ g)
    (hno : ∀ l ∈ langsOf g s p, l = none) :
    (⟨s, p, RdfNode.lit v none dt⟩ : RdfTriple) ∈ restrictLanguages g prefs := by
  have hchoice : choiceFor g s p prefs = none := by
    unfold choiceFor
    have hd := dedup_all_none (langsOf g s p) hno
    rcases hd with hd | hd
    · rw [hd]
      simp [pickLanguage]
    · rw [hd]
      simp [pickLanguage]
  apply List.mem_filter.mpr
  refine ⟨hmem, ?_⟩
  simp [keepTriple, hchoice]

/-- Witness for restrict_languages_keeps_untagged on a one-triple graph. -/
theorem restrict_languages_keeps_untagged_witness :
    (⟨RdfNode.iri "http://example.org/s", RdfNode.iri "http://example.org/p",
        RdfNode.lit "x" none none⟩ : RdfTriple) ∈
      restrictLanguages
        [⟨RdfNode.iri "http://example.org/s", RdfNode.iri "http://example.org/p",
            RdfNode.lit "x" none none⟩] none :=
  restrict_languages_keeps_untagged _ none _ _ "x" none (by decide) (by decide)

/-! ### Fragment allocator (src/lontod/ontologies/data/core.py)

RenderContext.fragment keeps a per-group cache of allocated fragment
identifiers plus the global set of used values; a fresh allocation walks a
candidate stream and takes the first candidate not yet used, giving up
(OverflowError, modelled as none) after MAX_FID_TRIES candidates.  The MD5
fallback of the external hashlib is kept abstract: every definition and
theorem is parametric in the hex-digest function, so the results hold for
any choice of it. -/

/-- Embeds the endswith("#") test on the last segment. -/
def endsWithHash (s : String) : Bool :=
  match s.data.getLast? with
  | some c => c = '#'
  | none => false

/-- Embeds RenderContext.__fragment_pure for the title-less call used by
fragment(): at most one pure identifier extracted from the IRI's last
slash segment. -/
def fragmentPure (uri : String) : List String :=
  let segments := splitChar '/' uri
  let last := segments.getLastD ""
  if last.data.length < 1 then []
  else if segments.length < 4 then []
  else if endsWithHash last then []
  else
    let hashParts := splitChar '#' last
    let lastHash := hashParts.getLastD ""
    [if lastHash ≠ "" then lastHash else hashParts.getD (hashParts.length - 2) ""]

/-- Maximum number of candidates tried per IRI (MAX_FID_TRIES). -/
def maxFidTries : Nat := 1000

/-- Embeds the candidate stream of RenderContext.__fragment, cut off after
the maxFidTries candidates the allocator is allowed to inspect: the pure
identifiers first, then every pure identifier (or the md5 fallback when
none was extracted) with suffixes _2, _3, and so on. -/
def fragmentCandidates (md5hex : String → String) (uri : String) : List String :=
  let pure := fragmentPure uri
  let pureIds := if pure.isEmpty then [md5hex uri] else pure
  (pure ++ (List.range maxFidTries).flatMap
      (fun k => pureIds.map (fun i => i ++ "_" ++ toString (k + 2)))).take maxFidTries

/-- Mutable state of a RenderContext's fragment registry: the map
(group, IRI) to fragment and the set of already-used fragment values. -/
structure FragState where
  fids : List ((String × String) × String)
  vals : List String
deriving DecidableEq, Repr

/-- Embeds RenderContext.fragment: return the cached identifier for
(group, IRI) if present; otherwise take the first unused candidate
(prefixed with the group unless the group is empty), record it, and return
it; none models the OverflowError when the try budget is exhausted. -/
def fragment (md5hex : String → String) (st : FragState) (iri group : String) :
    Option (String × FragState) :=
  match st.fids.lookup (group, iri) with
  | some f => some (f, st)
  | none =>
    let cands := (fragmentCandidates md5hex iri).map
      (fun fid => if group = "" then fid else group ++ "_" ++ fid)
    match cands.find? (fun c => ¬ st.vals.contains c) with
    | none => none
    | some f =>
      some (f, { fids := ((group, iri), f) :: st.fids, vals := f :: st.vals })

/-- Sequence of fragment calls within one context, returning all results
and the final state; none if any call overflows. -/
def runFragments (md5hex : String → String) (st : FragState) :
    List (String × String) → Option (List String × FragState)
  | [] => some ([], st)
  | (iri, group) :: rest =>
    match fragment md5hex st iri group with
    | none => none
    | some (f, st1) =>
      match runFragments md5hex st1 rest with
      | none => none
      | some (fs, st2) => some (f :: fs, st2)

/-- Well-formedness of a fragment registry: every cached value is in the
used set, and no two distinct (group, IRI) keys share a cached value. -/
def FragInv (st : FragState) : Prop :=
  (∀ k f, st.fids.lookup k = some f → f ∈ st.vals) ∧
  (∀ k1 k2 f, st.fids.lookup k1 = some f → st.fids.lookup k2 = some f → k1 = k2)

theorem fragment_step (md5hex : String → String) (st : FragState)
    (iri group f : String) (st1 : FragState) (hinv : FragInv st)
    (h : fragment md5hex st iri group = some (f, st1)) :
    FragInv st1 ∧ st1.fids.lookup (group, iri) = some f ∧
      (∀ k f0, st.fids.lookup k = some f0 → st1.fids.lookup k = some f0) := by
  cases hc : st.fids.lookup (group, iri) with
  | some f0 =>
    simp only [fragment, hc, Option.some.injEq, Prod.mk.injEq] at h
    obtain ⟨rfl, rfl⟩ := h
    exact ⟨hinv, hc, fun k fk hk => hk⟩
  | none =>
    simp only [fragment, hc] at h
    cases hfind : ((fragmentCandidates md5hex iri).map
        (fun fid => if group = "" then fid else group ++ "_" ++ fid)).find?
          (fun c => ¬ st.vals.contains c) with
    | none =>
      rw [hfind] at h
      exact absurd h (by simp)
    | some c =>
      rw [hfind] at h
      simp only [Option.some.injEq, Prod.mk.injEq] at h
      obtain ⟨rfl, rfl⟩ := h
      have hnotmem : c ∉ st.vals := by
        have := List.find?_some hfind
        simpa using this
      have hlook : ∀ k : String × String, k ≠ (group, iri) →
          (((group, iri), c) :: st.fids).lookup k = st.fids.lookup k := by
        intro k hk
        have hbeq : (k == (group, iri)) = false := beq_false_of_ne hk
        simp [List.lookup, hbeq]
      refine ⟨⟨?_, ?_⟩, ?_, ?_⟩
      · intro k fk hk
        by_cases hkk : k = (group, iri)
        · subst hkk
          have hcf : c = fk := by
            simpa [List.lookup] using hk
          simp [← hcf]
        · rw [hlook k hkk] at hk
          exact List.mem_cons_of_mem _ (hinv.1 k fk hk)
      · intro k1 k2 fk h1 h2
        by_cases hk1 : k1 = (group, iri) <;> by_cases hk2 : k2 = (group, iri)
        · rw [hk1, hk2]
        · subst hk1
          have hfk : c = fk := by simpa [List.lookup] using h1
          rw [← hfk] at h2
          rw [hlook k2 hk2] at h2
          exact absurd (hinv.1 k2 c h2) hnotmem
        · subst hk2
          have hfk : c = fk := by simpa [List.lookup] using h2
          rw [← hfk] at h1
          rw [hlook k1 hk1] at h1
          exact absurd (hinv.1 k1 c h1) hnotmem
        · rw [hlook k1 hk1] at h1
          rw [hlook k2 hk2] at h2
          exact hinv.2 k1 k2 fk h1 h2
      · simp [List.lookup]
      · intro k f0 hk
        have hkk : k ≠ (group, iri) := by
          intro hkk
          rw [hkk, hc] at hk
          exact absurd hk (by simp)
        rw [hlook k hkk]
        exact hk

theorem runFragments_spec (md5hex : String → String) (calls : List (String × String))
    (st : FragState) (frags : List String) (st2 : FragState) (hinv : FragInv st)
    (h : runFragments md5hex st calls = some (frags, st2)) :
    frags.length = calls.length ∧ FragInv st2 ∧
      (∀ k f0, st.fids.lookup k = some f0 → st2.fids.lookup k = some f0) ∧
      (∀ i (hi : i < calls.length) (hi2 : i < frags.length),
        st2.fids.lookup ((calls.get ⟨i, hi⟩).2, (calls.get ⟨i, hi⟩).1) =
          some (frags.get ⟨i, hi2⟩)) := by
  induction calls generalizing st frags with
  | nil =>
    simp only [runFragments, Option.some.injEq, Prod.mk.injEq] at h
    obtain ⟨rfl, rfl⟩ := h
    exact ⟨rfl, hinv, fun k f0 hk => hk, fun i hi => absurd hi (by simp)⟩
  | cons call rest ih =>
    obtain ⟨iri, group⟩ := call
    cases hf : fragment md5hex st iri group with
    | none =>
      simp only [runFragments, hf] at h
      exact absurd h (by simp)
    | some p =>
      obtain ⟨f, st1⟩ := p
      cases hr : runFragments md5hex st1 rest with
      | none =>
        simp only [runFragments, hf, hr] at h
        exact absurd h (by simp)
      | some q =>
        obtain ⟨fs, st2'⟩ := q
        simp only [runFragments, hf, hr, Option.some.injEq, Prod.mk.injEq] at h
        obtain ⟨rfl, rfl⟩ := h
        obtain ⟨hinv1, hlook1, hpres1⟩ := fragment_step md5hex st iri group f st1 hinv hf
        obtain ⟨hlen, hinv2, hpres2, hidx⟩ := ih st1 fs hinv1 hr
        refine ⟨by simp [hlen], hinv2, fun k f0 hk => hpres2 k f0 (hpres1 k f0 hk), ?_⟩
        intro i hi hi2
        cases i with
        | zero =>
          simpa using hpres2 (group, iri) f hlook1
        | succ n =>
          have hn : n < rest.length := by simpa using hi
          have hn2 : n < fs.length := by simpa using hi2
          simpa using hidx n hn hn2

/-- C3: within one RenderContext (starting from the empty registry), for
any sequence of fragment calls that completes without overflowing, two
calls return the same fragment identifier exactly when they have the same
(group, IRI) pair; the result holds for every MD5 fallback function. -/
theorem fragment_unique (md5hex : String → String)
    (calls : List (String × String)) (frags : List String) (st2 : FragState)
    (h : runFragments md5hex ⟨[], []⟩ calls = some (frags, st2))
    (j k : Nat) (hj : j < calls.length) (hk : k < calls.length)
    (hj2 : j < frags.length) (hk2 : k < frags.length) :
    frags.get ⟨j, hj2⟩ = frags.get ⟨k, hk2⟩ ↔
      calls.get ⟨j, hj⟩ = calls.get ⟨k, hk⟩ := by
  have hinv0 : FragInv ⟨[], []⟩ := by
    constructor
    · intro kk f hkf
      exact absurd hkf (by simp [List.lookup])
    · intro k1 k2 f h1 h2
      exact absurd h1 (by simp [List.lookup])
  obtain ⟨hlen, hinv2, _, hidx⟩ := runFragments_spec md5hex calls ⟨[], []⟩ frags st2 hinv0 h
  constructor
  · intro heq
    have h1 := hidx j hj hj2
    have h2 := hidx k hk hk2
    rw [heq] at h1
    have := hinv2.2 _ _ _ h1 h2
    have hfst : (calls.get ⟨j, hj⟩).1 = (calls.get ⟨k, hk⟩).1 := congrArg Prod.snd this
    have hsnd : (calls.get ⟨j, hj⟩).2 = (calls.get ⟨k, hk⟩).2 := congrArg Prod.fst this
    exact Prod.ext hfst hsnd
  · intro heq
    have h1 := hidx j hj hj2
    have h2 := hidx k hk hk2
    rw [heq] at h1
    rw [h1] at h2
    injection h2

/-- Witness for fragment_unique: two IRIs of one run get distinct
fragments, and an IRI asked twice gets the identical fragment. -/
theorem fragment_unique_witness :
    (([ "Thing", "Other", "Thing" ] : List String).get ⟨0, by decide⟩ =
        ([ "Thing", "Other", "Thing" ] : List String).get ⟨2, by decide⟩ ↔
      (([("http://example.org/o/Thing", ""), ("http://example.org/o/Other", ""),
          ("http://example.org/o/Thing", "")] : List (String × String)).get ⟨0, by decide⟩ =
        ([("http://example.org/o/Thing", ""), ("http://example.org/o/Other", ""),
          ("http://example.org/o/Thing", "")] : List (String × String)).get ⟨2, by decide⟩)) :=
  fragment_unique (fun s => s)
    [("http://example.org/o/Thing", ""), ("http://example.org/o/Other", ""),
      ("http://example.org/o/Thing", "")]
    ["Thing", "Other", "Thing"]
    ⟨[(("", "http://example.org/o/Other"), "Other"),
        (("", "http://example.org/o/Thing"), "Thing")],
      ["Other", "Thing"]⟩
    (by decide) 0 2 (by decide) (by decide) (by decide) (by decide)

/-! ### Connection pool (src/lontod/utils/pool.py)

State-passing model of the Pool deque: get pops from the front, put appends
at the back unless the pool is full, and teardown inspects the queue once.
Each operation also reports the items handed to the teardown callback. -/

/-- Idle objects held by a Pool, front of the deque first, together with
the configured size bound. -/
structure PoolState (α : Type) where
  q : List α
  maxsize : Nat
deriving DecidableEq, Repr

/-- Embeds Pool.put: the item is reset (a no-op here) and appended, unless
the pool is full, in which case it is torn down; the second component lists
the items passed to the teardown callback. -/
def poolPut {α : Type} (st : PoolState α) (item : α) : PoolState α × List α :=
  if st.q.length = st.maxsize then (st, [item])
  else ({ st with q := st.q ++ [item] }, [])

/-- Embeds Pool.teardown as written in the source: a single if around one
popleft, not a loop. -/
def poolTeardown {α : Type} (st : PoolState α) : PoolState α × List α :=
  match st.q with
  | [] => (st, [])
  | x :: rest => ({ st with q := rest }, [x])

/-- C9: evaluating the code at the failing input.  A pool of size 2 that
holds two idle objects (reachable by two puts into an empty pool) is NOT
drained by a single teardown call: only the first object is torn down and
the queue still holds the second, contradicting the teardown docstring
(Removes all objects from the pool) and the specification. -/
theorem pool_teardown_leaves_items :
    poolPut (PoolState.mk ([] : List Nat) 2) 0 = (⟨[0], 2⟩, []) ∧
    poolPut (PoolState.mk ([0] : List Nat) 2) 1 = (⟨[0, 1], 2⟩, []) ∧
    poolTeardown (PoolState.mk ([0, 1] : List Nat) 2) = (⟨[1], 2⟩, [0]) ∧
    (poolTeardown (PoolState.mk ([0, 1] : List Nat) 2)).1.q ≠ [] := by
  refine ⟨rfl, rfl, rfl, ?_⟩
  decide

/-! ### Controller (src/lontod/index/controller.py)

The writer connection is modelled as the committed database plus the
pending in-transaction view and an open-transaction flag; each entry point
returns the final connection and the trace of lock and transaction events,
in order.  The ingester is an oracle parameter (its behaviour depends on
the filesystem): it transforms the pending database and reports success
and failure lists and an optionally raised exception (distinguishing
AssertionError, which parts of the controller swallow). -/

/-- Lock and transaction events, in the order they are executed. -/
inductive SqlEv where
  | lockAcquire
  | beginTxn
  | commitTxn
  | rollbackTxn
  | lockRelease
deriving DecidableEq, Repr

/-- Writer connection: last committed state, pending in-transaction state,
and whether a transaction is open. -/
structure Conn where
  committed : Db
  pending : Db
  inTxn : Bool
deriving DecidableEq, Repr

/-- Python exception, tagged with whether it is an AssertionError. -/
structure PyErr where
  isAssertionError : Bool
deriving DecidableEq, Repr

/-- Outcome of one Ingester.__call__ invocation: the database it leaves
behind (possibly partially mutated when an exception is raised), the
success and failure lists, and the raised exception if any. -/
structure IngestResult where
  db : Db
  successes : List String
  failures : List String
  err : Option PyErr
deriving DecidableEq, Repr

/-- Executing BEGIN: open a transaction whose pending view starts at the
committed snapshot. -/
def beginConn (c : Conn) : Conn :=
  { committed := c.committed, pending := c.committed, inTxn := true }

/-- Executing COMMIT: the pending state becomes committed. -/
def commitConn (c : Conn) : Conn :=
  { committed := c.pending, pending := c.pending, inTxn := false }

/-- Executing ROLLBACK: the pending state is discarded. -/
def rollbackConn (c : Conn) : Conn :=
  { committed := c.committed, pending := c.committed, inTxn := false }

/-- Embeds ReIndexingHandler.reindex_now around __reindex_impl: BEGIN under
the lock; the ingester runs with truncate=True; an AssertionError raised by
the ingester call itself is swallowed (leaving the local failures list
empty), any other exception propagates to the handler; a non-empty
failures list raises AssertionError; reindex_now catches every exception
from the impl, then commits when nothing was raised (or force is set) and
rolls back otherwise. -/
def reindexNow (ing : Db → IngestResult) (_initSchema force : Bool) (c : Conn) :
    Conn × List SqlEv :=
  let c1 := beginConn c
  let r := ing c1.pending
  let c2 := { c1 with pending := r.db }
  let implOk : Bool :=
    match r.err with
    | some e => e.isAssertionError
    | none => r.failures.isEmpty
  if implOk || force then
    (commitConn c2, [SqlEv.lockAcquire, SqlEv.beginTxn, SqlEv.commitTxn, SqlEv.lockRelease])
  else
    (rollbackConn c2, [SqlEv.lockAcquire, SqlEv.beginTxn, SqlEv.rollbackTxn, SqlEv.lockRelease])

/-- C1: a watcher-triggered re-index (reindex_now with force=False) in
which at least one input file fails to ingest (non-empty failures list,
no exception escaping the ingester) rolls the transaction back: the
committed state is unchanged, the pending rows of the attempt are
discarded, and the trace is acquire-begin-rollback-release. -/
theorem reindex_now_rolls_back (ing : Db → IngestResult) (initSchema : Bool)
    (c : Conn)
    (hfail : (ing (beginConn c).pending).failures ≠ [])
    (herr : (ing (beginConn c).pending).err = none) :
    reindexNow ing initSchema false c =
      ({ committed := c.committed, pending := c.committed, inTxn := false },
        [SqlEv.lockAcquire, SqlEv.beginTxn, SqlEv.rollbackTxn, SqlEv.lockRelease]) := by
  have hne : (ing (beginConn c).pending).failures.isEmpty = false := by
    simpa [List.isEmpty_iff] using hfail
  simp only [beginConn] at herr hne
  simp [reindexNow, herr, hne, rollbackConn, beginConn]

/-- Ingester oracle with one failed file and no escaping exception, used by
the re-index witness. -/
def failedFileIng : Db → IngestResult :=
  fun db => ⟨db, [], ["bad.ttl"], none⟩

/-- Fresh writer connection on an empty committed database. -/
def freshConn : Conn := ⟨⟨[], []⟩, ⟨[], []⟩, false⟩

/-- Witness for reindex_now_rolls_back on a concrete failing ingestion. -/
theorem reindex_now_rolls_back_witness :
    reindexNow failedFileIng false false freshConn =
      ({ committed := freshConn.committed, pending := freshConn.committed,
          inTxn := false },
        [SqlEv.lockAcquire, SqlEv.beginTxn, SqlEv.rollbackTxn, SqlEv.lockRelease]) :=
  reindex_now_rolls_back failedFileIng false freshConn (by decide) (by decide)

/-- Embeds Controller.index_and_commit: BEGIN under the lock, run the
ingester with initialize=True and truncate=False, COMMIT.  There is no
try/except: when the ingester raises, neither COMMIT nor ROLLBACK is
executed, the with-statement releases the lock-and the exception
propagates with the transaction still open.  The per-file failure lists
returned by the ingester are ignored and do not prevent the commit. -/
def indexAndCommit (ing : Db → IngestResult) (c : Conn) :
    Conn × List SqlEv × Option PyErr :=
  let c1 := beginConn c
  let r := ing c1.pending
  let c2 := { c1 with pending := r.db }
  match r.err with
  | some e =>
    (c2, [SqlEv.lockAcquire, SqlEv.beginTxn, SqlEv.lockRelease], some e)
  | none =>
    (commitConn c2,
      [SqlEv.lockAcquire, SqlEv.beginTxn, SqlEv.commitTxn, SqlEv.lockRelease], none)

/-- Ingester oracle that raises a non-AssertionError exception after
partially mutating the pending database. -/
def raisingIng : Db → IngestResult :=
  fun db => ⟨{ db with data := db.data ++ [⟨"o", "text/html", [1]⟩] }, [], [],
    some ⟨false⟩⟩

/-- C8 counterexample: when the ingester raises inside index_and_commit,
no ROLLBACK is executed before the lock is released - the trace of the
call contains no rollback event at all (and the transaction is left
open). -/
theorem index_and_commit_no_rollback :
    ¬ (SqlEv.rollbackTxn ∈ (indexAndCommit raisingIng freshConn).2.1) ∧
    (indexAndCommit raisingIng freshConn).1.inTxn = true := by
  refine ⟨?_, rfl⟩
  decide

/-- C8 amended: if the ingester raises during index_and_commit, COMMIT is
not executed, so the committed database state is unchanged; but no
ROLLBACK is issued either: the exception propagates, the lock is released
last, and the transaction is left open with the partially mutated pending
state. -/
theorem index_and_commit_error (ing : Db → IngestResult) (c : Conn) (e : PyErr)
    (herr : (ing (beginConn c).pending).err = some e) :
    indexAndCommit ing c =
      ({ committed := c.committed, pending := (ing (beginConn c).pending).db,
          inTxn := true },
        [SqlEv.lockAcquire, SqlEv.beginTxn, SqlEv.lockRelease], some e) := by
  simp only [beginConn] at herr
  simp [indexAndCommit, herr, beginConn]

/-- Witness for index_and_commit_error on a concrete raising ingester. -/
theorem index_and_commit_error_witness :
    indexAndCommit raisingIng freshConn =
      ({ committed := freshConn.committed,
          pending := (raisingIng (beginConn freshConn).pending).db,
          inTxn := true },
        [SqlEv.lockAcquire, SqlEv.beginTxn, SqlEv.lockRelease],
        some ⟨false⟩) :=
  index_and_commit_error raisingIng freshConn ⟨false⟩ (by decide)

/-! ### Content negotiation (src/lontod/daemon/http.py and handler.py)

The negotiate helper delegates to best_match of the external
python-mimeparse library, which is not part of this repository; best_match
and its helpers are modelled here from that library's documented
algorithm: parse the comma-separated media ranges of the Accept header,
score each supported type by (quality, fitness) against the ranges, sort
the ((quality, fitness), position, name) tuples and take the last, i.e.
the best score with later supported entries winning ties.  Float qualities
are modelled as rationals (parsed from plain decimal literals; anything
else falls back to quality 1, like an out-of-range q). -/

/-- Insert a parameter into a Python-dict-like association list: at most
one binding per key, the newest value winning. -/
def insertParam (ps : List (String × String)) (k v : String) :
    List (String × String) :=
  ps.filter (fun p => p.1 ≠ k) ++ [(k, v)]

/-- Model of Python part.partition sliced at the first equals sign:
the key and the (possibly empty) value. -/
def partitionEq (s : String) : String × String :=
  match splitChar '=' s with
  | [] => (s, "")
  | [k] => (k, "")
  | k :: rest => (k, pyJoin "=" rest)

/-- Models mimeparse.parse_mime_type: split off ;-separated key=value
parameters, normalize a bare asterisk, and split the remainder into type
and subtype; none models MimeTypeParseException. -/
def parseMimeType (s : String) :
    Option (String × String × List (String × String)) :=
  match splitChar ';' s with
  | [] => none
  | full :: parts =>
    let params := parts.foldl (fun ps part =>
      let kv := partitionEq part
      if kv.2 ≠ "" then insertParam ps (pyStrip kv.1) (pyStrip kv.2) else ps) []
    let fullType := pyStrip full
    let fullType2 := if fullType = "*" then "*/*" else fullType
    match splitChar '/' fullType2 with
    | [t, sub] => some (pyStrip t, pyStrip sub, params)
    | _ => none

/-- Numeric value of a digit string. -/
def digitsToNat (l : List Char) : Nat :=
  l.foldl (fun acc c => 10 * acc + (c.toNat - '0'.toNat)) 0

/-- Plain decimal literals as rationals (the only q values the model
accepts; everything else falls back to the default quality). -/
def parseDecimal (s : String) : Option ℚ :=
  match splitChar '.' s with
  | [a] =>
    if a ≠ "" ∧ a.data.all (fun c => c.isDigit) then
      some ((digitsToNat a.data : ℚ))
    else none
  | [a, b] =>
    if (a ≠ "" ∨ b ≠ "") ∧ a.data.all (fun c => c.isDigit) ∧
        b.data.all (fun c => c.isDigit) then
      some ((digitsToNat a.data : ℚ) +
        (digitsToNat b.data : ℚ) / ((10 : ℚ) ^ b.data.length))
    else none
  | _ => none

/-- Models mimeparse.parse_media_range: parse the mime type and read the
quality parameter, defaulting to 1 when absent, unparseable or out of
range. -/
def parseMediaRange (s : String) :
    Option (String × String × List (String × String) × ℚ) :=
  match parseMimeType s with
  | none => none
  | some (t, sub, params) =>
    let q : ℚ :=
      match params.lookup "q" with
      | none => 1
      | some qs =>
        match parseDecimal qs with
        | none => 1
        | some v => if 0 ≤ v ∧ v ≤ 1 then v else 1
    some (t, sub, params, q)

/-- Bonus points of quality_and_fitness: one per non-q target parameter
present with the same value in the range. -/
def countParamMatches (target ranges : List (String × String)) : Int :=
  ((target.filter (fun p => p.1 ≠ "q" && ranges.lookup p.1 == some p.2)).length : Int)

/-- Models mimeparse.quality_and_fitness: best (quality, fitness) of the
supported type against the parsed ranges, starting from quality 0 and
fitness -1. -/
def qualityAndFitness (mime : String)
    (ranges : List (String × String × List (String × String) × ℚ)) :
    Option (ℚ × Int) :=
  match parseMediaRange mime with
  | none => none
  | some (tt, ts, tparams, _) =>
    some (ranges.foldl (fun acc r =>
      let rt := r.1
      let rs := r.2.1
      let rparams := r.2.2.1
      let rq := r.2.2.2
      let typeMatch := rt == tt || rt == "*" || tt == "*"
      let subtypeMatch := rs == ts || rs == "*" || ts == "*"
      if typeMatch && subtypeMatch then
        let fitness : Int := (if rt == tt then 100 else 0) +
          (if rs == ts then 10 else 0) + countParamMatches tparams rparams
        if fitness > acc.2 then (rq, fitness) else acc
      else acc) ((0 : ℚ), (-1 : Int)))

/-- Comparison on (quality, fitness) scores used to keep the last maximal
entry of the sorted weighted matches. -/
def qfLe (a b : ℚ × Int) : Bool :=
  a.1 < b.1 || (a.1 == b.1 && a.2 ≤ b.2)

/-- Models mimeparse.best_match: filter blank ranges out of the header,
parse them, score every supported entry, and return the last best-scoring
entry, or the empty string when its quality is 0; none models a raised
MimeTypeParseException (also covering the IndexError on an empty supported
list). -/
def bestMatch (supported : List String) (header : String) : Option String :=
  let splitHeader := (splitChar ',' header).filter (fun r => pyStrip r ≠ "")
  match splitHeader.mapM parseMediaRange with
  | none => none
  | some ranges =>
    match supported.mapM
        (fun mt => (qualityAndFitness mt ranges).map (fun qf => (qf, mt))) with
    | none => none
    | some weighted =>
      match weighted with
      | [] => none
      | w :: ws =>
        let best := ws.foldl (fun acc x => if qfLe acc.1 x.1 then x else acc) w
        some (if best.1.1 == 0 then "" else best.2)

/-- Embeds negotiate of src/lontod/daemon/http.py: no Accept header yields
the default, a parse failure yields the default, and a falsy (empty)
best_match result yields the default. -/
def negotiate (accepts offers : List String) (dflt : Option String) :
    Option String :=
  if accepts.isEmpty then dflt
  else
    match bestMatch offers (pyJoin "," accepts) with
    | none => dflt
    | some s => if s = "" then dflt else some s

/-! ### HTTP handler (src/lontod/daemon/handler.py) -/

/-- Response body: text (error pages) or blob bytes. -/
inductive HBody where
  | text (s : String)
  | bytes (b : List Nat)
deriving DecidableEq, Repr

/-- Response returned by a handler. -/
structure HResponse where
  status : Nat
  mediaType : Option String
  headers : List (String × String)
  body : HBody
deriving DecidableEq, Repr

/-- Embeds Handler.error_response. -/
def errorResponse (code : Nat) (message : String) : HResponse :=
  ⟨code, some "text/plain", [], HBody.text message⟩

/-- Embeds the extension table of src/lontod/ontologies/types.py. -/
def formatToMediaTypes : List (String × String) :=
  [("xml", "application/rdf+xml"), ("n3", "text/n3"), ("turtle", "text/turtle"),
    ("nt", "text/plain"), ("trig", "application/trig"),
    ("json-ld", "application/ld+json"), ("hext", "application/x-ndjson")]

/-- Embeds extension_from_type: reverse lookup in the table. -/
def extensionFromType (typ : String) : Option String :=
  (formatToMediaTypes.map (fun p => (p.2, p.1))).lookup typ

/-- Embeds Handler.serve_ontology: fetch the stored bytes and answer 200
with the negotiated content type and a content disposition built from the
identifier and the extension. -/
def serveOntology (db : Db) (identifier typ : String) (download : Bool) :
    HResponse :=
  match getData db identifier typ with
  | none => errorResponse 500 "Negotiated content type went away"
  | some content =>
    let filename :=
      match extensionFromType typ with
      | some e => identifier ++ "." ++ e
      | none => identifier
    let disposition := (if download then "attachment" else "inline") ++
      "; filename*=UTF-8''" ++ filename
    ⟨200, some typ, [("Content-Disposition", disposition)], HBody.bytes content⟩

/-- Embeds Handler.handle_ontology: without a format parameter, negotiate
over the stored MIME types (404 when there are none), falling back to
text/plain when negotiation fails or yields something unoffered, else 406;
with a format parameter, require it to be stored, else 404. -/
def handleOntology (db : Db) (identifier : String) (accepts : List String)
    (typ : Option String) (download : Bool) : HResponse :=
  match typ with
  | none =>
    let offers := getMimeTypes db identifier
    if offers.isEmpty then errorResponse 404 "Ontology not found"
    else
      let decision :=
        match negotiate accepts offers none with
        | some d =>
          if offers.contains d then some d
          else if offers.contains "text/plain" then some "text/plain" else none
        | none =>
          if offers.contains "text/plain" then some "text/plain" else none
      match decision with
      | none => errorResponse 406 "No available content type"
      | some d => serveOntology db identifier d download
  | some t =>
    if hasMimeType db identifier t then serveOntology db identifier t download
    else errorResponse 404 "Ontology not found"

/-- Concrete media types: a single type/subtype with no parameters, no
wildcards and no separator or whitespace characters, characterized through
the parser itself; every MIME type the indexer stores (section 6.1 of the
specification) satisfies this. -/
def isSimpleMediaType (m : String) : Bool :=
  match parseMimeType m with
  | some (t, s, params) =>
    params.isEmpty && t != "*" && s != "*" && m == t ++ "/" ++ s &&
      (splitChar ',' m == [m]) && (pyStrip m == m)
  | none => false

/-! Supporting lemmas for the content-negotiation claim. -/

theorem simple_elim {m : String} (h : isSimpleMediaType m = true) :
    ∃ t s, parseMimeType m = some (t, s, []) ∧ t ≠ "*" ∧ s ≠ "*" ∧
      m = t ++ "/" ++ s ∧ splitChar ',' m = [m] ∧ pyStrip m = m := by
  unfold isSimpleMediaType at h
  cases hp : parseMimeType m with
  | none =>
    rw [hp] at h
    exact absurd h (by simp)
  | some tr =>
    obtain ⟨t, s, params⟩ := tr
    rw [hp] at h
    simp only [Bool.and_eq_true, beq_iff_eq, bne_iff_ne, ne_eq,
      List.isEmpty_iff, and_assoc] at h
    obtain ⟨hparams, ht, hs, heq, hsplit, hstrip⟩ := h
    subst hparams
    exact ⟨t, s, rfl, ht, hs, heq, hsplit, hstrip⟩

theorem simple_range {m t s : String} (hp : parseMimeType m = some (t, s, [])) :
    parseMediaRange m = some (t, s, [], 1) := by
  simp [parseMediaRange, hp, List.lookup]

theorem simple_ne_empty {m t s : String} (heq : m = t ++ "/" ++ s) : m ≠ "" := by
  intro h0
  rw [h0] at heq
  have h1 := congrArg String.length heq
  simp only [String.length_append] at h1
  have h2 : ("" : String).length = 0 := rfl
  have h3 : ("/" : String).length = 1 := rfl
  omega

theorem qf_offer (m t s o : String) (hmp : parseMimeType m = some (t, s, []))
    (hmeq : m = t ++ "/" ++ s) (ht : t ≠ "*") (hs : s ≠ "*")
    (ho : isSimpleMediaType o = true) :
    qualityAndFitness o [(t, s, [], 1)] =
      some (if o = m then ((1 : ℚ), (110 : Int)) else ((0 : ℚ), (-1 : Int))) := by
  obtain ⟨tof, sof, hpo, hto, hso, heqo, _, _⟩ := simple_elim ho
  have hcomp : o = m → tof = t ∧ sof = s := by
    intro hom
    rw [hom, hmp] at hpo
    simp only [Option.some.injEq, Prod.mk.injEq] at hpo
    exact ⟨hpo.1.symm, hpo.2.1.symm⟩
  simp only [qualityAndFitness, simple_range hpo, List.foldl_cons, List.foldl_nil]
  by_cases hteq : t = tof
  · by_cases hseq : s = sof
    · have hom : o = m := by
        rw [heqo, hmeq, hteq, hseq]
      have hbt : (t == tof) = true := by simp [hteq]
      have hbs : (s == sof) = true := by simp [hseq]
      simp only [hbt, hbs, Bool.true_or, Bool.and_self, if_pos, hom, if_true]
      norm_num [countParamMatches]
    · have hom : o ≠ m := fun hom => hseq ((hcomp hom).2.symm)
      have hbs : (s == sof) = false := by simp [hseq]
      have hbs2 : (s == "*") = false := by simp [hs]
      have hbs3 : (sof == "*") = false := by simp [hso]
      simp [hbs, hbs2, hbs3, hom]
  · have hom : o ≠ m := fun hom => hteq ((hcomp hom).1.symm)
    have hbt : (t == tof) = false := by simp [hteq]
    have hbt2 : (t == "*") = false := by simp [ht]
    have hbt3 : (tof == "*") = false := by simp [hto]
    simp [hbt, hbt2, hbt3, hom]

theorem mapM_option_some {α β : Type} (F : α → Option β) (G : α → β)
    (l : List α) (h : ∀ x ∈ l, F x = some (G x)) :
    l.mapM F = some (l.map G) := by
  induction l with
  | nil => rfl
  | cons x xs ih =>
    rw [List.mapM_cons, h x (List.mem_cons_self x xs),
      ih (fun y hy => h y (List.mem_cons_of_mem x hy))]
    rfl

/-- Accumulator step of the modelled weighted-match maximum. -/
def qfStep (acc x : (ℚ × Int) × String) : (ℚ × Int) × String :=
  if qfLe acc.1 x.1 then x else acc

theorem foldl_qfStep_keep (ws : List ((ℚ × Int) × String))
    (accA : (ℚ × Int) × String) (hacc : accA.1 = ((1 : ℚ), (110 : Int)))
    (hws : ∀ x ∈ ws, x.1 = ((0 : ℚ), (-1 : Int))) :
    ws.foldl qfStep accA = accA := by
  induction ws with
  | nil => rfl
  | cons y ys ih =>
    rw [List.foldl_cons]
    have hy : y.1 = ((0 : ℚ), (-1 : Int)) := hws y (List.mem_cons_self y ys)
    have hstep : qfStep accA y = accA := by
      unfold qfStep
      rw [hacc, hy]
      norm_num [qfLe]
    rw [hstep]
    exact ih (fun x hx => hws x (List.mem_cons_of_mem y hx))

theorem foldl_qfStep_low (ws : List ((ℚ × Int) × String))
    (acc : (ℚ × Int) × String) (hacc : acc.1 = ((0 : ℚ), (-1 : Int)))
    (hws : ∀ x ∈ ws, x.1 = ((0 : ℚ), (-1 : Int))) :
    (ws.foldl qfStep acc).1 = ((0 : ℚ), (-1 : Int)) := by
  induction ws generalizing acc with
  | nil => exact hacc
  | cons y ys ih =>
    rw [List.foldl_cons]
    have hy : y.1 = ((0 : ℚ), (-1 : Int)) := hws y (List.mem_cons_self y ys)
    have hstep : (qfStep acc y).1 = ((0 : ℚ), (-1 : Int)) := by
      unfold qfStep
      by_cases h : qfLe acc.1 y.1 = true
      · rw [if_pos h]
        exact hy
      · rw [if_neg h]
        exact hacc
    exact ih (qfStep acc y) hstep (fun x hx => hws x (List.mem_cons_of_mem y hx))

theorem foldl_qfStep_reach (l2 : List ((ℚ × Int) × String))
    (accA : (ℚ × Int) × String) (hacc : accA.1 = ((1 : ℚ), (110 : Int)))
    (hl2 : ∀ x ∈ l2, x.1 = ((0 : ℚ), (-1 : Int))) :
    ∀ (l1 : List ((ℚ × Int) × String)) (acc : (ℚ × Int) × String),
      acc.1 = ((0 : ℚ), (-1 : Int)) →
      (∀ x ∈ l1, x.1 = ((0 : ℚ), (-1 : Int))) →
      (l1 ++ accA :: l2).foldl qfStep acc = accA := by
  intro l1
  induction l1 with
  | nil =>
    intro acc hacclow _
    rw [List.nil_append, List.foldl_cons]
    have hstep : qfStep acc accA = accA := by
      unfold qfStep
      rw [hacclow, hacc]
      norm_num [qfLe]
    rw [hstep]
    exact foldl_qfStep_keep l2 accA hacc hl2
  | cons y ys ih =>
    intro acc hacclow hl1
    rw [List.cons_append, List.foldl_cons]
    have hy : y.1 = ((0 : ℚ), (-1 : Int)) := hl1 y (List.mem_cons_self y ys)
    have hstep : (qfStep acc y).1 = ((0 : ℚ), (-1 : Int)) := by
      unfold qfStep
      by_cases h : qfLe acc.1 y.1 = true
      · rw [if_pos h]
        exact hy
      · rw [if_neg h]
        exact hacclow
    exact ih (qfStep acc y) hstep (fun x hx => hl1 x (List.mem_cons_of_mem y hx))

theorem bestMatch_single (offers : List String) (m : String)
    (hm : isSimpleMediaType m = true)
    (hall : ∀ o ∈ offers, isSimpleMediaType o = true)
    (hnd : offers.Nodup) (hmem : m ∈ offers) :
    bestMatch offers m = some m := by
  obtain ⟨t, s, hp, ht, hs, heq, hsplit, hstrip⟩ := simple_elim hm
  have hmne : m ≠ "" := simple_ne_empty heq
  have h1 : (splitChar ',' m).filter (fun r => pyStrip r ≠ "") = [m] := by
    rw [hsplit]
    have : pyStrip m ≠ "" := by
      rw [hstrip]
      exact hmne
    simp [this]
  have h2 : [m].mapM parseMediaRange = some [(t, s, [], 1)] := by
    rw [List.mapM_cons, simple_range hp, List.mapM_nil]
    rfl
  have h3 : offers.mapM (fun mt =>
      (qualityAndFitness mt [(t, s, [], 1)]).map (fun qf => (qf, mt))) =
      some (offers.map (fun o =>
        ((if o = m then ((1 : ℚ), (110 : Int)) else ((0 : ℚ), (-1 : Int))), o))) := by
    apply mapM_option_some
    intro o ho
    rw [qf_offer m t s o hp heq ht hs (hall o ho)]
    rfl
  obtain ⟨l1, l2, hsplit2⟩ := List.append_of_mem hmem
  subst hsplit2
  have hnotl1 : m ∉ l1 := by
    intro hmem1
    rcases List.nodup_append.mp hnd with ⟨_, _, hdisj⟩
    exact hdisj hmem1 (List.mem_cons_self m l2)
  have hnotl2 : m ∉ l2 := by
    rcases List.nodup_append.mp hnd with ⟨_, hnd2, _⟩
    exact (List.nodup_cons.mp hnd2).1
  unfold bestMatch
  have hmapsplit : (l1 ++ m :: l2).map (fun o =>
      ((if o = m then ((1 : ℚ), (110 : Int)) else ((0 : ℚ), (-1 : Int))), o)) =
      l1.map (fun o =>
        ((if o = m then ((1 : ℚ), (110 : Int)) else ((0 : ℚ), (-1 : Int))), o)) ++
      (((1 : ℚ), (110 : Int)), m) ::
      l2.map (fun o =>
        ((if o = m then ((1 : ℚ), (110 : Int)) else ((0 : ℚ), (-1 : Int))), o)) := by
    rw [List.map_append, List.map_cons, if_pos rfl]
  have hlow1 : ∀ x ∈ l1.map (fun o =>
      ((if o = m then ((1 : ℚ), (110 : Int)) else ((0 : ℚ), (-1 : Int))), o)),
      x.1 = ((0 : ℚ), (-1 : Int)) := by
    intro x hx
    obtain ⟨o, ho, rfl⟩ := List.mem_map.mp hx
    have : o ≠ m := fun h0 => hnotl1 (h0 ▸ ho)
    simp [this]
  have hlow2 : ∀ x ∈ l2.map (fun o =>
      ((if o = m then ((1 : ℚ), (110 : Int)) else ((0 : ℚ), (-1 : Int))), o)),
      x.1 = ((0 : ℚ), (-1 : Int)) := by
    intro x hx
    obtain ⟨o, ho, rfl⟩ := List.mem_map.mp hx
    have : o ≠ m := fun h0 => hnotl2 (h0 ▸ ho)
    simp [this]
  simp only [h1, h2, h3, hmapsplit]
  cases hl1m : l1.map (fun o =>
      ((if o = m then ((1 : ℚ), (110 : Int)) else ((0 : ℚ), (-1 : Int))), o)) with
  | nil =>
    rw [hl1m] at hlow1
    simp only [List.nil_append]
    have hfold : (l2.map (fun o =>
        ((if o = m then ((1 : ℚ), (110 : Int)) else ((0 : ℚ), (-1 : Int))), o))).foldl
          qfStep (((1 : ℚ), (110 : Int)), m) = (((1 : ℚ), (110 : Int)), m) :=
      foldl_qfStep_keep _ _ rfl hlow2
    show some _ = some m
    rw [show (fun (acc x : (ℚ × Int) × String) =>
      if qfLe acc.1 x.1 then x else acc) = qfStep from rfl, hfold]
    norm_num
  | cons w ws =>
    rw [hl1m] at hlow1
    simp only [List.cons_append]
    have hw : w.1 = ((0 : ℚ), (-1 : Int)) := hlow1 w (List.mem_cons_self w ws)
    have hws : ∀ x ∈ ws, x.1 = ((0 : ℚ), (-1 : Int)) :=
      fun x hx => hlow1 x (List.mem_cons_of_mem w hx)
    have hfold : (ws ++ (((1 : ℚ), (110 : Int)), m) ::
        l2.map (fun o =>
          ((if o = m then ((1 : ℚ), (110 : Int)) else ((0 : ℚ), (-1 : Int))), o))).foldl
          qfStep w = (((1 : ℚ), (110 : Int)), m) :=
      foldl_qfStep_reach _ _ rfl hlow2 ws w hw hws
    show some _ = some m
    rw [show (fun (acc x : (ℚ × Int) × String) =>
      if qfLe acc.1 x.1 then x else acc) = qfStep from rfl, hfold]
    norm_num

theorem negotiate_single (offers : List String) (m : String)
    (hm : isSimpleMediaType m = true)
    (hall : ∀ o ∈ offers, isSimpleMediaType o = true)
    (hnd : offers.Nodup) (hmem : m ∈ offers) :
    negotiate [m] offers none = some m := by
  obtain ⟨t, s, _, _, _, heq, _, _⟩ := simple_elim hm
  have hmne : m ≠ "" := simple_ne_empty heq
  have hjoin : pyJoin "," [m] = m := rfl
  simp only [negotiate, hjoin, bestMatch_single offers m hm hall hnd hmem]
  simp [hmne]

/-- C5: for an ontology retrieval with no format parameter, a client whose
Accept header holds exactly one concrete media type m that is among the
MIME types stored for the identifier is served 200 with content type m. -/
theorem handle_ontology_single_accept (db : Db) (identifier m : String)
    (download : Bool)
    (hall : ∀ ty ∈ storedTypes db identifier, isSimpleMediaType ty = true)
    (hmem : m ∈ storedTypes db identifier) :
    (handleOntology db identifier [m] none download).status = 200 ∧
    (handleOntology db identifier [m] none download).mediaType = some m := by
  have hm : isSimpleMediaType m = true := hall m hmem
  have hperm : List.Perm (getMimeTypes db identifier)
      (storedTypes db identifier).dedup := List.perm_insertionSort _ _
  have hoffmem : m ∈ getMimeTypes db identifier :=
    hperm.mem_iff.mpr (List.mem_dedup.mpr hmem)
  have hoffall : ∀ o ∈ getMimeTypes db identifier, isSimpleMediaType o = true :=
    fun o ho => hall o (List.mem_dedup.mp (hperm.mem_iff.mp ho))
  have hoffnd : (getMimeTypes db identifier).Nodup :=
    hperm.nodup_iff.mpr (List.nodup_dedup _)
  have hoffne : (getMimeTypes db identifier).isEmpty = false := by
    have hne : getMimeTypes db identifier ≠ [] := by
      intro h0
      rw [h0] at hoffmem
      exact absurd hoffmem (List.not_mem_nil m)
    simpa [List.isEmpty_iff] using hne
  have hneg : negotiate [m] (getMimeTypes db identifier) none = some m :=
    negotiate_single _ m hm hoffall hoffnd hoffmem
  have hcont : (getMimeTypes db identifier).contains m = true := by
    exact List.elem_eq_true_of_mem hoffmem
  have hdata : ∃ b, getData db identifier m = some b := by
    unfold storedTypes at hmem
    obtain ⟨r, hr, hrm⟩ := List.mem_map.mp hmem
    have hrmem : r ∈ db.data := (List.mem_filter.mp hr).1
    have hroid : (r.ontologyId == identifier) = true := (List.mem_filter.mp hr).2
    have hsome : (db.data.find?
        (fun r => r.ontologyId == identifier && r.mimeType == m)).isSome = true := by
      apply List.find?_isSome.mpr
      exact ⟨r, hrmem, by simp [hroid, hrm]⟩
    obtain ⟨rr, hrr⟩ := Option.isSome_iff_exists.mp hsome
    refine ⟨rr.blob, ?_⟩
    unfold getData
    rw [hrr]
    rfl
  obtain ⟨b, hdata⟩ := hdata
  constructor <;>
    simp [handleOntology, hoffne, hneg, hcont, hoffmem, serveOntology, hdata]

/-- Every media type the system serves (the closed table of section 6.1
plus the synthesized text/html) is a concrete parameter-free media type,
so the hypotheses of the negotiation theorem hold for real stores. -/
theorem served_types_simple :
    ∀ ty ∈ "text/html" :: formatToMediaTypes.map (fun p => p.2),
      isSimpleMediaType ty = true := by
  decide

/-- Concrete database for the content-negotiation witness: one ontology
stored as Turtle and HTML. -/
def negDb : Db :=
  ⟨[], [⟨"o", "text/turtle", [1]⟩, ⟨"o", "text/html", [2]⟩]⟩

/-- Witness for handle_ontology_single_accept: Accept: text/html alone gets
text/html. -/
theorem handle_ontology_single_accept_witness :
    (handleOntology negDb "o" ["text/html"] none false).status = 200 ∧
    (handleOntology negDb "o" ["text/html"] none false).mediaType =
      some "text/html" :=
  handle_ontology_single_accept negDb "o" "text/html" false (by decide) (by decide)

end Lontod
